import Mathlib

/-!
# Verification of the Go tutorial repository examples

Shallow embedding of the example programs (range-loop sum, array zero
values, variadic sum, conditional chain, closure counter, bank account
withdrawal, map lookups, safeDiv with recover, the mutex-protected
counter, and the worker pool) together with proofs of the claims of the spec
about them.

Go `int` values are modelled as `Int` (no value in these examples comes
near the 64-bit overflow boundary), Go `float64` values as `ℚ` (the
arithmetic in the bank-account example is exact at this scale), Go slices
and arrays as `List`, and Go string output as Lean `String`.
-/

namespace GoSpec

/-! ## C1: the range-loop accumulator in `src/range/range.go`

```go
sum := 0
nums := []int{1, 3, 2, 4, 5}
for _, num := range nums {
    sum = sum + num
}
fmt.Println(sum)
```
The loop is a left fold of `+` over the slice starting from `0`. -/

/-- The slice literal `nums := []int{1, 3, 2, 4, 5}` from `range.go`. -/
def rangeNums : List Int := [1, 3, 2, 4, 5]

/-- The range loop of `range.go`: start from `sum = 0` and add every
element of the slice in order. -/
def rangeSum (nums : List Int) : Int :=
  nums.foldl (fun sum num => sum + num) 0

/-! ## C7: array zero values in `src/unnamed/part_001`

```go
var nums [4]int    // len 4, all 0
var vals [5]bool   // [false false false false false]
var car  [5]string // all ""
```
A declared-but-unassigned Go array has every element equal to the zero
value of its element type. -/

/-- Array `var nums [4]int` before any assignment: four zero ints. -/
def arrNums : List Int := List.replicate 4 0

/-- Array `var vals [5]bool` before any assignment: five `false`s. -/
def arrVals : List Bool := List.replicate 5 false

/-- Array `var car [5]string` before any assignment: five empty strings. -/
def arrCar : List String := List.replicate 5 ""

/-! ## C8: the variadic `sum` in `src/unnamed/part_007`

```go
func sum(a ...int) int {
    total := 0
    for _, v := range a {
        total += v
    }
    return total
}
```
Inside the function the variadic parameter behaves as a slice, and both
`sum(1,2,3,4,5)` and `sum(nums...)` pass that slice. -/

/-- The variadic function `sum` of `part_007`: accumulate `total` over
the argument slice starting from `0`. -/
def sum (a : List Int) : Int :=
  a.foldl (fun total v => total + v) 0

/-! ## C10: the if / else-if / else chain in `src/conditional/condition.go`

```go
if temp <= 15 {
    fmt.Println("Cold Day")
} else if temp >= 15 && temp <= 25 {
    fmt.Println("Moderate Day")
} else {
    fmt.Println("Hot Day")
}
```
-/

/-- The temperature classification of `condition.go`, evaluated in source
order: the first branch whose condition holds wins. -/
def classifyTemp (temp : Int) : String :=
  if temp ≤ 15 then "Cold Day"
  else if temp ≥ 15 ∧ temp ≤ 25 then "Moderate Day"
  else "Hot Day"

/-! ## C5: `safeDiv` with deferred `recover` in `src/unnamed/part_005`

```go
func safeDiv(a, b int) (result int, err error) {
    defer func() {
        if r := recover(); r != nil {
            err = fmt.Errorf("recovered from panic: %v", r)
        }
    }()
    return a / b, nil  // will panic if b == 0
}
```
Go integer division truncates toward zero (`Int.tdiv`) and panics with
"runtime error: integer divide by zero" when the divisor is zero. When
`a / b` panics, the named result `result` keeps its zero value `0` and
the deferred closure converts the panic into a non-nil `err`. -/

/-- The Go expression `a / b` on ints: `none` models the divide-by-zero panic,
otherwise division truncating toward zero. -/
def goIntDiv (a b : Int) : Option Int :=
  if b = 0 then none else some (Int.tdiv a b)

/-- Function `safeDiv` of `part_005`: result plus an optional error message. A
successful division returns `(a / b, nil)`; a divide-by-zero panic is
recovered by the deferred closure, leaving `result` at its zero value
and setting `err`. -/
def safeDiv (a b : Int) : Int × Option String :=
  match goIntDiv a b with
  | some q => (q, none)
  | none => (0, some "recovered from panic: runtime error: integer divide by zero")

/-! ## C6: the closure counter in `src/closures/closure.go`

```go
func counter() func() int {
    count := 1
    return func() int {
        count += 1
        return count
    }
}
```
Each call to `counter()` creates a fresh captured `count` initialised to
1; every call to the returned closure increments it and returns the new
value. -/

/-- The captured variable `count := 1` of a fresh `counter()` closure. -/
def counterInit : Int := 1

/-- One call to the closure returned by `counter()`: `count += 1;
return count`, as (returned value, new captured state). -/
def incrementCall (count : Int) : Int × Int := (count + 1, count + 1)

/-- The captured `count` after `n` calls to one closure. -/
def countAfter : Nat → Int
  | 0 => counterInit
  | n + 1 => (incrementCall (countAfter n)).2

/-- The value returned by the `n`-th call (1-indexed) to one closure. -/
def nthCallResult (n : Nat) : Int := (incrementCall (countAfter (n - 1))).1

/-- Two independent closures obtained from two calls to `counter()`,
driven by an arbitrary interleaving: `true` calls the first closure,
`false` the second. Returns the pair of captured states. -/
def twoCounters (w : List Bool) : Int × Int :=
  w.foldl
    (fun st b =>
      if b then ((incrementCall st.1).2, st.2) else (st.1, (incrementCall st.2).2))
    (counterInit, counterInit)

/-! ## C3: `BankAccount.Withdraw` in `src/unnamed/part_001`

```go
func (a *BankAccount) Withdraw(amount float64) error {
    a.mu.Lock()
    defer a.mu.Unlock()
    if amount > a.balance {
        return errors.New("insufficient funds")
    }
    a.balance -= amount
    return nil
}
```
The mutex makes the call atomic; the sequential body is modelled
directly. The `float64` balance and amount are modelled as exact
rationals (the arithmetic of the example involves no rounding concerns at
this scale). -/

/-- The `BankAccount` struct of `part_001` (the mutex field only
serialises calls and carries no data). -/
structure BankAccount where
  balance : ℚ

/-- Method `Withdraw` returns the optional error (`none` models the Go `nil`)
together with the account state after the call. -/
def BankAccount.Withdraw (a : BankAccount) (amount : ℚ) :
    Option String × BankAccount :=
  if amount > a.balance then
    (some "insufficient funds", a)
  else
    (none, { balance := a.balance - amount })

/-! ## C9: map indexing and the two-value lookup in `src/range/range.go`

```go
m1 := make(map[string]string)
m1["name"] = "golang"
m1["company"] = "Google"
fmt.Println(m1["data"])   // "" — key not present, zero value for string

m2 := map[string]string{"name": "Anurag", "email": "anurag@gmail.com"}
name, ok := m2["name"]    // ok == true iff key present
```
A `map[string]string` is modelled as an association list where a set
shadows earlier bindings and lookup takes the most recent one. -/

/-- A Go `map[string]string`. -/
def GoMap := List (String × String)

/-- Map creation `make(map[string]string)`: the empty map. -/
def goMake : GoMap := []

/-- Assignment `m[k] = v`: insert or update a key. -/
def goSet (m : GoMap) (k v : String) : GoMap := (k, v) :: m

/-- The keys currently bound in the map. -/
def goKeys (m : GoMap) : List String := m.map Prod.fst

/-- Single-value indexing `m[k]`: the stored value when the key is
present, the zero value `""` of the value type otherwise. -/
def goIndex (m : GoMap) (k : String) : String :=
  (List.lookup k m).getD ""

/-- Two-value lookup `v, ok := m[k]`. -/
def goIndex2 (m : GoMap) (k : String) : String × Bool :=
  match List.lookup k m with
  | some v => (v, true)
  | none => ("", false)

/-- Map `m1` after the two sets in the companion map example of `range.go`. -/
def m1 : GoMap := goSet (goSet goMake "name" "golang") "company" "Google"

/-- The map literal `m2 := map[string]string{"name": "Anurag",
"email": "anurag@gmail.com"}`. -/
def m2 : GoMap := [("name", "Anurag"), ("email", "anurag@gmail.com")]

/-! ## C2: the mutex-protected counter (`SafeCounter`, `increment`)

```go
func (c *SafeCounter) Increment() {
    c.mu.Lock()
    c.count++
    c.mu.Unlock()   // (defer) — then wg.Done() of the goroutine runs
}
```
1000 goroutines each call `Increment` once; `main` does `wg.Wait()` and
prints `counter.Value()`.

Small-step interleaving model: each goroutine acquires the lock, reads
the shared counter, then writes the incremented value, releases the lock
and signals the wait group. The mutex is modelled by a `holder` slot: a
step that needs the lock is enabled only when no other goroutine holds
it, which is exactly the mutual exclusion `sync.Mutex` provides. The
read and the write are separate steps, so every interleaving of the
unlocked goroutines is represented. -/

/-- Global state of the `SafeCounter` program with some number of
identical incrementer goroutines. -/
structure MuState where
  /-- the shared `count` field -/
  mem : Int
  /-- goroutines that have not yet entered `mu.Lock()` -/
  idle : Nat
  /-- Lock slot. `none`: mutex free; `some none`: a goroutine holds the mutex but
  has not yet read `count`; `some (some v)`: the holder read `v` -/
  holder : Option (Option Int)
  /-- goroutines whose `Increment` and `wg.Done()` have completed -/
  done : Nat
  deriving DecidableEq, Repr

/-- One scheduler choice for the `SafeCounter` program. -/
inductive MuAct where
  /-- an idle goroutine succeeds in `mu.Lock()` -/
  | acquire
  /-- the lock holder reads `c.count` -/
  | readCount
  /-- the lock holder writes `c.count`, runs `mu.Unlock()` and `wg.Done()` -/
  | writeUnlock
  deriving DecidableEq, Repr

/-- One interleaving step; `none` when the chosen action is not enabled
(e.g. `mu.Lock()` while another goroutine holds the mutex). -/
def muStep (s : MuState) : MuAct → Option MuState
  | .acquire =>
      match s.holder, s.idle with
      | none, i + 1 => some { s with idle := i, holder := some none }
      | _, _ => none
  | .readCount =>
      match s.holder with
      | some none => some { s with holder := some (some s.mem) }
      | _ => none
  | .writeUnlock =>
      match s.holder with
      | some (some v) =>
          some { s with mem := v + 1, holder := none, done := s.done + 1 }
      | _ => none

/-- Run a whole schedule (sequence of enabled actions). -/
def muRun (s : MuState) : List MuAct → Option MuState
  | [] => some s
  | a :: rest =>
      match muStep s a with
      | some s' => muRun s' rest
      | none => none

/-- Initial state: `count = 0`, `n` goroutines about to call
`Increment`, mutex free. -/
def muInit (n : Nat) : MuState := { mem := 0, idle := n, holder := none, done := 0 }

/-- The inductive invariant of the `SafeCounter` program: the counter
equals the number of completed increments, the read value of the lock holder
(if any) is current, and goroutines are conserved. -/
def MuInv (n : Nat) (s : MuState) : Prop :=
  s.mem = s.done ∧
    (∀ v : Int, s.holder = some (some v) → v = s.mem) ∧
    s.idle + (if s.holder = none then 0 else 1) + s.done = n

/-- A schedule in which the goroutines enter the critical section one
after another, `n` times. -/
def muTrace : Nat → List MuAct
  | 0 => []
  | n + 1 => MuAct.acquire :: MuAct.readCount :: MuAct.writeUnlock :: muTrace n

/-! ## C4: the worker pool in `src/unnamed/part_005`

```go
func worker(id int, jobs <-chan Job, results chan<- string, wg *sync.WaitGroup) {
    defer wg.Done()
    for job := range jobs {
        results <- fmt.Sprintf(...)
    }
}
func main() {
    const numWorkers = 5
    const numJobs = 20
    jobs := make(chan Job, numJobs)
    results := make(chan string, numJobs)
    // start 5 workers (wg.Add(1) each); send 20 jobs; close(jobs)
    go func() { wg.Wait(); close(results) }()
    for result := range results { fmt.Println(result) }
}
```
Small-step interleaving model. Channels are modelled by their buffer
occupancy plus a closed flag (a send is enabled only while the buffer
has room, a receive only while it is non-empty; a `range` receive
terminates only once the channel is closed and drained). The wait group
counts workers whose deferred `wg.Done()` has run; the `close(results)` of the closer
goroutine is enabled exactly when `wg.Wait()` would return, i.e.
when all `numWorkers` workers are done. The model allows every
interleaving of all enabled steps of the goroutines. -/

/-- Constant `numWorkers = 5` from the worker-pool source. -/
def numWorkers : Nat := 5

/-- Constant `numJobs = 20` from the worker-pool source. -/
def numJobs : Nat := 20

/-- Global state of the worker-pool program. -/
structure WpState where
  /-- jobs sent by `main` so far -/
  sent : Nat
  /-- jobs sitting in the `jobs` channel buffer -/
  pending : Nat
  /-- Flag: `close(jobs)` has run -/
  jobsClosed : Bool
  /-- workers inside `for job := range jobs`, not holding a job -/
  nIdle : Nat
  /-- workers that received a job and have not yet pushed its result -/
  nHold : Nat
  /-- workers whose loop ended and whose deferred `wg.Done()` ran -/
  nDone : Nat
  /-- results sent to the `results` channel so far -/
  pushed : Nat
  /-- results sitting in the `results` channel buffer -/
  buf : Nat
  /-- Flag: `close(results)` has run -/
  resultsClosed : Bool
  /-- results received by the range loop of `main` -/
  collected : Nat
  /-- Flag: the range loop of `main` over `results` has terminated -/
  mainDone : Bool
  deriving DecidableEq, Repr

/-- One scheduler choice for the worker-pool program. -/
inductive WpAct where
  /-- Step: `main` sends one job (`jobs <- Job{...}`) -/
  | sendJob
  /-- Step: `main` runs `close(jobs)` after the send loop -/
  | closeJobs
  /-- Step: the `range jobs` receive of an idle worker gets a job -/
  | takeJob
  /-- a job-holding worker sends its result (`results <- result`) -/
  | pushResult
  /-- Step: the `range jobs` receive of an idle worker sees the closed, drained channel;
  its loop ends and the deferred `wg.Done()` runs -/
  | exitWorker
  /-- the closer goroutine: `wg.Wait()` returns and `close(results)` runs -/
  | closeResults
  /-- Step: the `range results` loop of `main` receives one result -/
  | collectResult
  /-- Step: the `range results` loop of `main` sees the closed, drained channel and ends -/
  | finishMain
  deriving DecidableEq, Repr

/-- One interleaving step of the worker pool; `none` when the chosen
action is not enabled. -/
def wpStep (s : WpState) : WpAct → Option WpState
  | .sendJob =>
      if s.jobsClosed = false ∧ s.sent < numJobs ∧ s.pending < numJobs then
        some { s with sent := s.sent + 1, pending := s.pending + 1 }
      else none
  | .closeJobs =>
      if s.jobsClosed = false ∧ s.sent = numJobs then
        some { s with jobsClosed := true }
      else none
  | .takeJob =>
      if 0 < s.nIdle ∧ 0 < s.pending then
        some { s with pending := s.pending - 1, nIdle := s.nIdle - 1,
                      nHold := s.nHold + 1 }
      else none
  | .pushResult =>
      if 0 < s.nHold ∧ s.buf < numJobs then
        some { s with nHold := s.nHold - 1, nIdle := s.nIdle + 1,
                      pushed := s.pushed + 1, buf := s.buf + 1 }
      else none
  | .exitWorker =>
      if 0 < s.nIdle ∧ s.pending = 0 ∧ s.jobsClosed = true then
        some { s with nIdle := s.nIdle - 1, nDone := s.nDone + 1 }
      else none
  | .closeResults =>
      if s.nDone = numWorkers ∧ s.resultsClosed = false then
        some { s with resultsClosed := true }
      else none
  | .collectResult =>
      if 0 < s.buf then
        some { s with buf := s.buf - 1, collected := s.collected + 1 }
      else none
  | .finishMain =>
      if s.resultsClosed = true ∧ s.buf = 0 ∧ s.mainDone = false then
        some { s with mainDone := true }
      else none

/-- Run a whole schedule of the worker pool. -/
def wpRun (s : WpState) : List WpAct → Option WpState
  | [] => some s
  | a :: rest =>
      match wpStep s a with
      | some s' => wpRun s' rest
      | none => none

/-- Initial state: nothing sent, five workers started, wait-group count
full, both channels open and empty. -/
def wpInit : WpState :=
  { sent := 0, pending := 0, jobsClosed := false, nIdle := numWorkers,
    nHold := 0, nDone := 0, pushed := 0, buf := 0, resultsClosed := false,
    collected := 0, mainDone := false }

/-- The inductive invariant of the worker pool: workers are conserved,
jobs are conserved between the buffer, the in-flight workers and the
pushed results, closing happens in the program order, and results are
conserved between the buffer and the collection in `main`. -/
def WpInv (s : WpState) : Prop :=
  s.nIdle + s.nHold + s.nDone = numWorkers ∧
    s.pending + s.nHold + s.pushed = s.sent ∧
    s.sent ≤ numJobs ∧
    (s.jobsClosed = true → s.sent = numJobs) ∧
    (0 < s.nDone → s.jobsClosed = true) ∧
    (s.nDone = numWorkers → s.pending = 0) ∧
    (s.resultsClosed = true → s.nDone = numWorkers) ∧
    s.buf + s.collected = s.pushed ∧
    (s.mainDone = true → s.resultsClosed = true ∧ s.buf = 0)

/-- The canonical schedule: `main` sends all 20 jobs and closes `jobs`;
one worker drains the queue, taking and pushing each job; all five
workers then exit; the closer closes `results`; `main` collects all 20
results and its range loop ends. -/
def wpTrace : List WpAct :=
  List.replicate 20 WpAct.sendJob ++ [WpAct.closeJobs] ++
    (List.replicate 20 [WpAct.takeJob, WpAct.pushResult]).flatten ++
    List.replicate 5 WpAct.exitWorker ++ [WpAct.closeResults] ++
    List.replicate 20 WpAct.collectResult ++ [WpAct.finishMain]

/-- The state the canonical schedule ends in. -/
def wpFinal : WpState :=
  { sent := 20, pending := 0, jobsClosed := true, nIdle := 0, nHold := 0,
    nDone := 5, pushed := 20, buf := 0, resultsClosed := true,
    collected := 20, mainDone := true }

/-! ### Theorems -/

/-- C1: summing the slice `{1, 3, 2, 4, 5}` with the range-loop
accumulator yields `15`: starting from `sum = 0` and adding every element
of `nums` in order, the value printed at the end of the loop equals 15. -/
theorem rangeSum_nums_eq_15 : rangeSum rangeNums = 15 := by
  decide

/-- C7: `var nums [4]int` has length 4 and every element 0, `var vals
[5]bool` has every element `false` (printed as
`[false false false false false]`), and `var car [5]string` has every
element equal to the empty string before any assignment. -/
theorem array_zero_values :
    arrNums.length = 4 ∧ arrNums = [0, 0, 0, 0] ∧
      arrVals = [false, false, false, false, false] ∧
      arrCar = ["", "", "", "", ""] := by
  refine ⟨rfl, rfl, rfl, rfl⟩

theorem sum_foldl_eq_add_sum (a : List Int) :
    ∀ total : Int, a.foldl (fun total v => total + v) total = total + a.sum := by
  induction a with
  | nil => intro total; simp
  | cons x xs ih =>
      intro total
      simp only [List.foldl_cons, List.sum_cons, ih]
      ring

/-- C8: the variadic `sum` is the left fold of integer addition starting
at 0 over its arguments, so `sum(xs...)` equals the sum of the elements
of `xs`, `sum()` with zero arguments returns 0, and calling it with a
spread slice equals calling it with the same values listed
individually (both calls receive the same slice). -/
theorem sum_spec :
    (∀ xs : List Int, sum xs = xs.sum) ∧ sum [] = 0 ∧
      sum [1, 2, 3, 4, 5] = sum ([1, 2, 3, 4, 5] : List Int) := by
  refine ⟨fun xs => ?_, rfl, rfl⟩
  unfold sum
  rw [sum_foldl_eq_add_sum]
  simp

/-- C10: the chain is evaluated in order, so at the overlapping boundary
`temp = 15` both branch conditions hold but the program prints
`"Cold Day"`; `"Moderate Day"` is printed exactly for `temp ∈ [16, 25]`,
and `"Hot Day"` exactly for `temp > 25`. -/
theorem classifyTemp_spec :
    (classifyTemp 15 = "Cold Day" ∧ (15 : Int) ≤ 15 ∧ (15 : Int) ≥ 15 ∧ (15 : Int) ≤ 25) ∧
      (∀ t : Int, classifyTemp t = "Moderate Day" ↔ 16 ≤ t ∧ t ≤ 25) ∧
      (∀ t : Int, classifyTemp t = "Hot Day" ↔ 25 < t) := by
  refine ⟨⟨by decide, by decide, by decide, by decide⟩, fun t => ?_, fun t => ?_⟩ <;>
    · unfold classifyTemp
      split_ifs with h1 h2 <;>
        simp_all <;> omega

/-- C5: for every pair of ints `(a, b)` with `b ≠ 0`, `safeDiv a b`
returns `(a / b, nil)`; for `b = 0` the deferred recover converts the
divide-by-zero panic into a non-nil error, so `safeDiv a 0` returns
normally with a non-nil error instead of propagating the panic. -/
theorem safeDiv_spec (a b : Int) :
    (b ≠ 0 → safeDiv a b = (Int.tdiv a b, none)) ∧
      (safeDiv a 0).2 ≠ none ∧ (safeDiv a 0).1 = 0 := by
  refine ⟨fun hb => by simp [safeDiv, goIntDiv, hb], by simp [safeDiv, goIntDiv],
    by simp [safeDiv, goIntDiv]⟩

/-- C5 witness: `safeDiv 10 2 = (5, nil)` and `safeDiv 10 0` yields a
non-nil error with result 0. -/
theorem safeDiv_spec_witness :
    safeDiv 10 2 = (Int.tdiv 10 2, none) ∧
      (safeDiv 10 0).2 ≠ none ∧ (safeDiv 10 0).1 = 0 :=
  ⟨(safeDiv_spec 10 2).1 (by decide), (safeDiv_spec 10 0).2.1,
    (safeDiv_spec 10 0).2.2⟩

theorem countAfter_eq (n : Nat) : countAfter n = counterInit + n := by
  induction n with
  | zero => simp [countAfter]
  | succ n ih => simp [countAfter, incrementCall, ih]; ring

theorem twoCounters_eq (w : List Bool) :
    ∀ c₁ c₂ : Int,
      w.foldl
        (fun st b =>
          if b then ((incrementCall st.1).2, st.2) else (st.1, (incrementCall st.2).2))
        (c₁, c₂) = (c₁ + w.count true, c₂ + w.count false) := by
  induction w with
  | nil => intro c₁ c₂; simp
  | cons b bs ih =>
      intro c₁ c₂
      cases b
      · rw [List.foldl_cons, if_neg (by simp), ih]
        simp [incrementCall, List.count_cons]
        all_goals omega
      · rw [List.foldl_cons, if_pos rfl, ih]
        simp [incrementCall, List.count_cons]
        all_goals omega

/-- C6: the function returned by `counter()` retains the captured
`count` across calls, so (with `count` initialised to 1) its `n`-th call
returns `n + 1` — in particular the first call prints 2 — and each
separate call to `counter()` produces a closure with independent state:
under any interleaving, the state of each closure depends only on the number
of calls made to that closure. -/
theorem closure_counter_spec :
    (∀ n : Nat, 1 ≤ n → nthCallResult n = n + 1) ∧ nthCallResult 1 = 2 ∧
      (∀ w : List Bool,
        twoCounters w = (counterInit + w.count true, counterInit + w.count false)) := by
  refine ⟨fun n hn => ?_, by decide, fun w => twoCounters_eq w counterInit counterInit⟩
  unfold nthCallResult incrementCall
  rw [countAfter_eq]
  unfold counterInit
  obtain ⟨m, rfl⟩ : ∃ m, n = m + 1 := ⟨n - 1, by omega⟩
  push_cast
  ring

/-- C6 witness: the third call to a closure returns 4, the first
returns 2, and an interleaving of two calls to the first closure and one
to the second leaves states (3, 2). -/
theorem closure_counter_spec_witness :
    (1 ≤ 3 ∧ nthCallResult 3 = 3 + 1) ∧ nthCallResult 1 = 2 ∧
      twoCounters [true, false, true] = (counterInit + 2, counterInit + 1) :=
  ⟨⟨by decide, closure_counter_spec.1 3 (by decide)⟩, closure_counter_spec.2.1,
    by have h := closure_counter_spec.2.2 [true, false, true]; simpa using h⟩

/-- C3: `Withdraw` follows the return-an-error-value convention: for
every account state and every amount, it returns the "insufficient
funds" error if and only if `amount > balance` at the time of the call;
when it returns an error the balance is unchanged; otherwise it returns
`nil` and the balance decreases by exactly `amount`. -/
theorem withdraw_spec (a : BankAccount) (amount : ℚ) :
    ((a.Withdraw amount).1 = some "insufficient funds" ↔ amount > a.balance) ∧
      ((a.Withdraw amount).1 ≠ none → (a.Withdraw amount).2 = a) ∧
      ((a.Withdraw amount).1 = none →
        (a.Withdraw amount).2.balance = a.balance - amount) := by
  unfold BankAccount.Withdraw
  split_ifs with h <;> simp [h]

/-- C3 witness: withdrawing 300 from a balance of 1000 succeeds and
leaves 700; withdrawing 1500 returns the error and leaves the balance
unchanged. -/
theorem withdraw_spec_witness :
    (BankAccount.Withdraw ⟨1000⟩ 300).1 = none ∧
      (BankAccount.Withdraw ⟨1000⟩ 300).2.balance = 1000 - 300 ∧
      ((BankAccount.Withdraw ⟨1000⟩ 1500).1 = some "insufficient funds" ↔
        (1500 : ℚ) > 1000) ∧
      (BankAccount.Withdraw ⟨1000⟩ 1500).2 = ⟨1000⟩ := by
  refine ⟨?_, (withdraw_spec ⟨1000⟩ 300).2.2 ?_, (withdraw_spec ⟨1000⟩ 1500).1,
    (withdraw_spec ⟨1000⟩ 1500).2.1 ?_⟩
  · norm_num [BankAccount.Withdraw]
  · norm_num [BankAccount.Withdraw]
  · norm_num [BankAccount.Withdraw]
    simp

theorem lookup_isSome_iff_mem_keys (m : GoMap) (k : String) :
    (List.lookup k m).isSome = true ↔ k ∈ goKeys m := by
  induction m with
  | nil => simp [goKeys, List.lookup]
  | cons p rest ih =>
      obtain ⟨k', v'⟩ := p
      cases hkk : (k == k') with
      | true =>
          have hk : k = k' := by simpa using hkk
          subst hk
          simp [goKeys, List.lookup, hkk]
      | false =>
          have hne : k ≠ k' := by simpa using hkk
          simp [goKeys, List.lookup, hkk, hne, ih]

/-- C9: reading a map with a key that is not present returns the zero
value of the value type without failing (`m1["data"] = ""`), and the
two-value form `name, ok := m[key]` returns `ok = true` iff the key is
present, with `name` equal to the stored value when present and the zero
value `""` otherwise. -/
theorem map_lookup_spec :
    goIndex m1 "data" = "" ∧
      (∀ (m : GoMap) (k : String),
        ((goIndex2 m k).2 = true ↔ k ∈ goKeys m) ∧
          (∀ v, List.lookup k m = some v → (goIndex2 m k).1 = v) ∧
          ((goIndex2 m k).2 = false → (goIndex2 m k).1 = "")) := by
  refine ⟨by decide, fun m k => ⟨?_, fun v hv => ?_, fun h => ?_⟩⟩
  · rw [← lookup_isSome_iff_mem_keys]
    cases hkv : List.lookup k m with
    | none => simp [goIndex2, hkv]
    | some v => simp [goIndex2, hkv]
  · simp [goIndex2, hv]
  · cases hkv : List.lookup k m with
    | none => simp [goIndex2, hkv]
    | some v => simp [goIndex2, hkv] at h

/-- C9 witness: on `m2`, the two-value lookup of `"name"` returns
`("Anurag", true)` with `"name"` a present key, and the lookup of the
absent `"data"` returns `("", false)`. -/
theorem map_lookup_spec_witness :
    goIndex m1 "data" = "" ∧
      ((goIndex2 m2 "name").2 = true ↔ "name" ∈ goKeys m2) ∧
      (goIndex2 m2 "name").1 = "Anurag" ∧
      (goIndex2 m2 "data").2 = false ∧ (goIndex2 m2 "data").1 = "" :=
  ⟨map_lookup_spec.1, (map_lookup_spec.2 m2 "name").1,
    (map_lookup_spec.2 m2 "name").2.1 "Anurag" (by decide),
    by decide,
    (map_lookup_spec.2 m2 "data").2.2 (by decide)⟩

theorem muStep_inv {n : Nat} {s s' : MuState} {a : MuAct}
    (hinv : MuInv n s) (hstep : muStep s a = some s') : MuInv n s' := by
  obtain ⟨hmem, hread, hcount⟩ := hinv
  cases a with
  | acquire =>
      unfold muStep at hstep
      cases hh : s.holder with
      | some o => simp [hh] at hstep
      | none =>
          cases hi : s.idle with
          | zero => simp [hh, hi] at hstep
          | succ i =>
              simp only [hh, hi] at hstep
              cases hstep
              refine ⟨hmem, by simp, ?_⟩
              simp [hh, hi] at hcount ⊢
              omega
  | readCount =>
      unfold muStep at hstep
      cases hh : s.holder with
      | none => simp [hh] at hstep
      | some o =>
          cases o with
          | some v => simp [hh] at hstep
          | none =>
              simp only [hh] at hstep
              cases hstep
              refine ⟨hmem, ?_, ?_⟩
              · intro v hv
                simp at hv ⊢
                exact hv.symm
              · simp [hh] at hcount ⊢
                omega
  | writeUnlock =>
      unfold muStep at hstep
      cases hh : s.holder with
      | none => simp [hh] at hstep
      | some o =>
          cases o with
          | none => simp [hh] at hstep
          | some v =>
              simp only [hh] at hstep
              cases hstep
              have hv : v = s.mem := hread v hh
              refine ⟨by simp [hv, hmem], by simp, ?_⟩
              simp [hh] at hcount ⊢
              omega

theorem muRun_inv {n : Nat} :
    ∀ (acts : List MuAct) (s s' : MuState),
      MuInv n s → muRun s acts = some s' → MuInv n s' := by
  intro acts
  induction acts with
  | nil =>
      intro s s' hinv hrun
      unfold muRun at hrun
      cases hrun
      exact hinv
  | cons a rest ih =>
      intro s s' hinv hrun
      unfold muRun at hrun
      cases hstep : muStep s a with
      | none => simp [hstep] at hrun
      | some s₁ =>
          simp only [hstep] at hrun
          exact ih s₁ s' (muStep_inv hinv hstep) hrun

/-- C2: a mutex-protected counter incremented by 1000 concurrent
goroutines always ends at 1000: for every interleaving of the 1000
goroutines that each call `Increment` once, once all 1000 have completed
(`wg.Wait()` has returned), the counter value equals exactly 1000. -/
theorem safeCounter_spec (acts : List MuAct) (s : MuState)
    (hrun : muRun (muInit 1000) acts = some s) (hdone : s.done = 1000) :
    s.mem = 1000 := by
  have hinv : MuInv 1000 (muInit 1000) := by
    refine ⟨rfl, by simp [muInit], by simp [muInit]⟩
  have hfin := muRun_inv acts (muInit 1000) s hinv hrun
  have h1 := hfin.1
  omega

theorem muTrace_run (n : Nat) :
    ∀ d : Int, ∀ dn : Nat,
      muRun { mem := d, idle := n, holder := none, done := dn } (muTrace n) =
        some { mem := d + n, idle := 0, holder := none, done := dn + n } := by
  induction n with
  | zero => intro d dn; simp [muTrace, muRun]
  | succ n ih =>
      intro d dn
      simp only [muTrace, muRun, muStep]
      rw [ih (d + 1) (dn + 1)]
      simp only [Option.some.injEq, MuState.mk.injEq]
      refine ⟨by push_cast; ring, trivial, trivial, by omega⟩

/-- C2 witness: the sequential schedule of 1000 increments is a run of
the model that completes all 1000 goroutines, and the theorem applied to
it gives a final counter of 1000. -/
theorem safeCounter_spec_witness :
    muRun (muInit 1000) (muTrace 1000) =
        some { mem := 1000, idle := 0, holder := none, done := 1000 } ∧
      MuState.mem { mem := 1000, idle := 0, holder := none, done := 1000 } = 1000 := by
  have hrun : muRun (muInit 1000) (muTrace 1000) =
      some { mem := 1000, idle := 0, holder := none, done := 1000 } := by
    have h := muTrace_run 1000 0 0
    simpa [muInit] using h
  exact ⟨hrun, safeCounter_spec (muTrace 1000) _ hrun rfl⟩

theorem wpStep_inv {s s' : WpState} {a : WpAct}
    (hinv : WpInv s) (hstep : wpStep s a = some s') : WpInv s' := by
  obtain ⟨h1, h2, h3, h4, h5, h6, h7, h8, h9⟩ := hinv
  cases a with
  | sendJob =>
      simp only [wpStep] at hstep
      split_ifs at hstep with hg
      · cases hstep
        obtain ⟨hg1, hg2, hg3⟩ := hg
        refine ⟨by dsimp only; omega, by dsimp only; omega, by dsimp only; omega,
          ?_, ?_, ?_, ?_, by dsimp only; omega, ?_⟩
        · dsimp only
          intro hc
          simp [hg1] at hc
        · dsimp only
          exact h5
        · dsimp only
          intro hd
          exfalso
          have h0 : 0 < s.nDone := by rw [hd]; unfold numWorkers; omega
          simp [hg1] at h5
          omega
        · dsimp only
          exact h7
        · dsimp only
          exact h9
  | closeJobs =>
      simp only [wpStep] at hstep
      split_ifs at hstep with hg
      · cases hstep
        refine ⟨by dsimp only; omega, by dsimp only; omega, by dsimp only; omega,
          ?_, ?_, ?_, ?_, by dsimp only; omega, ?_⟩
        · dsimp only
          intro _
          exact hg.2
        · dsimp only
          intro _
          rfl
        · dsimp only
          exact h6
        · dsimp only
          exact h7
        · dsimp only
          exact h9
  | takeJob =>
      simp only [wpStep] at hstep
      split_ifs at hstep with hg
      · cases hstep
        obtain ⟨hg1, hg2⟩ := hg
        refine ⟨by dsimp only; omega, by dsimp only; omega, by dsimp only; omega,
          ?_, ?_, by dsimp only; omega, ?_, by dsimp only; omega, ?_⟩
        · dsimp only
          exact h4
        · dsimp only
          exact h5
        · dsimp only
          exact h7
        · dsimp only
          exact h9
  | pushResult =>
      simp only [wpStep] at hstep
      split_ifs at hstep with hg
      · cases hstep
        obtain ⟨hg1, hg2⟩ := hg
        refine ⟨by dsimp only; omega, by dsimp only; omega, by dsimp only; omega,
          ?_, ?_, ?_, ?_, by dsimp only; omega, ?_⟩
        · dsimp only
          exact h4
        · dsimp only
          exact h5
        · dsimp only
          exact h6
        · dsimp only
          exact h7
        · dsimp only
          intro hm
          exfalso
          have hnd := h7 (h9 hm).1
          omega
  | exitWorker =>
      simp only [wpStep] at hstep
      split_ifs at hstep with hg
      · cases hstep
        obtain ⟨hg1, hg2, hg3⟩ := hg
        refine ⟨by dsimp only; omega, by dsimp only; omega, by dsimp only; omega,
          ?_, ?_, ?_, ?_, by dsimp only; omega, ?_⟩
        · dsimp only
          exact h4
        · dsimp only
          intro _
          exact hg3
        · dsimp only
          intro _
          exact hg2
        · dsimp only
          intro hrc
          have hnd := h7 hrc
          omega
        · dsimp only
          exact h9
  | closeResults =>
      simp only [wpStep] at hstep
      split_ifs at hstep with hg
      · cases hstep
        refine ⟨by dsimp only; omega, by dsimp only; omega, by dsimp only; omega,
          ?_, ?_, ?_, ?_, by dsimp only; omega, ?_⟩
        · dsimp only
          exact h4
        · dsimp only
          exact h5
        · dsimp only
          exact h6
        · dsimp only
          intro _
          exact hg.1
        · dsimp only
          intro hm
          exact ⟨rfl, (h9 hm).2⟩
  | collectResult =>
      simp only [wpStep] at hstep
      split_ifs at hstep with hg
      · cases hstep
        refine ⟨by dsimp only; omega, by dsimp only; omega, by dsimp only; omega,
          ?_, ?_, ?_, ?_, by dsimp only; omega, ?_⟩
        · dsimp only
          exact h4
        · dsimp only
          exact h5
        · dsimp only
          exact h6
        · dsimp only
          exact h7
        · dsimp only
          intro hm
          exfalso
          have := (h9 hm).2
          omega
  | finishMain =>
      simp only [wpStep] at hstep
      split_ifs at hstep with hg
      · cases hstep
        obtain ⟨hg1, hg2, hg3⟩ := hg
        refine ⟨by dsimp only; omega, by dsimp only; omega, by dsimp only; omega,
          ?_, ?_, ?_, ?_, by dsimp only; omega, ?_⟩
        · dsimp only
          exact h4
        · dsimp only
          exact h5
        · dsimp only
          exact h6
        · dsimp only
          exact h7
        · dsimp only
          intro _
          exact ⟨hg1, hg2⟩

theorem wpRun_inv :
    ∀ (acts : List WpAct) (s s' : WpState),
      WpInv s → wpRun s acts = some s' → WpInv s' := by
  intro acts
  induction acts with
  | nil =>
      intro s s' hinv hrun
      unfold wpRun at hrun
      cases hrun
      exact hinv
  | cons a rest ih =>
      intro s s' hinv hrun
      unfold wpRun at hrun
      cases hstep : wpStep s a with
      | none => simp [hstep] at hrun
      | some s₁ =>
          simp only [hstep] at hrun
          exact ih s₁ s' (wpStep_inv hinv hstep) hrun

/-- C4: in the worker pool, `close(results)` runs only after the wait
group has been fully decremented — never before all `numWorkers` workers
have finished processing every job from the shared `jobs` channel — and
consequently the result-collecting range loop of `main` terminates after
receiving exactly one result per job (`collected = numJobs`). -/
theorem workerPool_spec (acts : List WpAct) (s : WpState)
    (hrun : wpRun wpInit acts = some s) :
    (s.resultsClosed = true → s.nDone = numWorkers ∧ s.pending = 0) ∧
      (s.mainDone = true → s.collected = numJobs) := by
  have hinv0 : WpInv wpInit := by
    refine ⟨?_, ?_, ?_, ?_, ?_, ?_, ?_, ?_, ?_⟩ <;> simp [wpInit, numWorkers, numJobs]
  obtain ⟨h1, h2, h3, h4, h5, h6, h7, h8, h9⟩ := wpRun_inv acts wpInit s hinv0 hrun
  constructor
  · intro hrc
    have hnd := h7 hrc
    exact ⟨hnd, h6 hnd⟩
  · intro hm
    obtain ⟨hrc, hbuf⟩ := h9 hm
    have hnd := h7 hrc
    have hp := h6 hnd
    have hjc : s.jobsClosed = true := h5 (by rw [hnd]; unfold numWorkers; omega)
    have hs := h4 hjc
    unfold numWorkers at hnd h1
    unfold numJobs at hs ⊢
    omega

/-- C4 witness: the canonical schedule is a run of the model ending in
`wpFinal`, and the theorem applied to it shows all five workers done at
`close(results)` and exactly 20 results collected. -/
theorem workerPool_spec_witness :
    wpRun wpInit wpTrace = some wpFinal ∧
      (wpFinal.nDone = numWorkers ∧ wpFinal.pending = 0) ∧
      wpFinal.collected = numJobs := by
  have hrun : wpRun wpInit wpTrace = some wpFinal := by decide
  exact ⟨hrun, (workerPool_spec wpTrace wpFinal hrun).1 rfl,
    (workerPool_spec wpTrace wpFinal hrun).2 rfl⟩

/-- C10 witness: the theorem instantiated at concrete temperatures:
at 20 the program prints exactly `"Moderate Day"` and at 30 exactly
`"Hot Day"`. -/
theorem classifyTemp_spec_witness :
    (classifyTemp 20 = "Moderate Day" ↔ (16 : Int) ≤ 20 ∧ (20 : Int) ≤ 25) ∧
      (classifyTemp 30 = "Hot Day" ↔ (25 : Int) < 30) :=
  ⟨classifyTemp_spec.2.1 20, classifyTemp_spec.2.2 30⟩

end GoSpec

